import Mathlib

/-!
Verification of the codec core of the `ccc` molecule serialization layer.

The repository contains two variants of the signed-integer codec module:
one (here namespace `part000`) whose decoders enforce the exact buffer
length through `fixedBytesFrom`, and one (`src/packages/core/src/molecule/signed.ts`,
here namespace `molsig`) whose decoders read directly from a `DataView`
without an explicit length check.  Byte buffers are modelled as lists of
naturals below 256; machine integer wrapping is explicit `% 2^w`.
-/

/-- A byte buffer: a list of byte values (each below 256 for genuine buffers). -/
abbrev Bytes := List Nat

/-- Errors raised by `decode`.  `invalidBufferSize` models the `Error` thrown by
`fixedBytesFrom` (message `invalid buffer size, expected E, but got A`);
`outOfBounds` models the `RangeError` a `DataView` getter throws when reading
past the end of the buffer; the remaining constructors model the `DecodeError`s
of the vector combinator. -/
inductive DecodeError where
  | invalidBufferSize (expected actual : Nat)
  | outOfBounds
  | totalLengthMismatch (expected actual : Nat)
  | offsetTable
  | itemBodySize (expected actual : Nat)
  | atIndex (i : Nat) (e : DecodeError)
deriving DecidableEq, Repr

/-- Little-endian byte decomposition of `val % 256^k` into exactly `k` bytes. -/
def toLEBytes : Nat → Nat → Bytes
  | 0, _ => []
  | k + 1, val => val % 256 :: toLEBytes k (val / 256)

/-- Read a little-endian unsigned integer from a byte list. -/
def fromLEBytes : Bytes → Nat
  | [] => 0
  | b :: bs => b + 256 * fromLEBytes bs

/-- Reinterpret the unsigned value `m` (below `2^(8*k)`) as a `8*k`-bit
two's-complement signed integer, exactly as a `DataView` signed getter does. -/
def asSigned (k : Nat) (m : Nat) : Int :=
  if m < 2 ^ (8 * k - 1) then (m : Int) else (m : Int) - 2 ^ (8 * k)

/-- Model of `DataView.setIntN(0, n, littleEndian)` on a fresh `k`-byte buffer:
the value is wrapped modulo `2^(8*k)` and written in the requested byte
order.  (`setInt8`/`setBigInt64` behave the same way for k = 1 and k = 8.) -/
def intEncode (k : Nat) (littleEndian : Bool) (n : Int) : Bytes :=
  let m := (n % ((2 : Int) ^ (8 * k))).toNat
  let le := toLEBytes k m
  if littleEndian then le else le.reverse

/-- Model of `fixedBytesFrom(bufferLike, byteLength)` from `part_000`: normalizes the
input and throws when the buffer size differs from `byteLength`, naming the
expected and actual sizes. -/
def fixedBytesFrom (buffer : Bytes) (byteLength : Nat) : Except DecodeError Bytes :=
  if buffer.length ≠ byteLength then
    .error (.invalidBufferSize byteLength buffer.length)
  else
    .ok buffer

/-- The `part_000` decode path: `fixedBytesFrom` followed by the `DataView`
signed getter at offset 0. -/
def intDecodeStrict (k : Nat) (littleEndian : Bool) (b : Bytes) :
    Except DecodeError Int := do
  let buffer ← fixedBytesFrom b k
  .ok (asSigned k (fromLEBytes (if littleEndian then buffer else buffer.reverse)))

/-- The `signed.ts` decode path: `bytesFrom` followed directly by the
`DataView` signed getter at offset 0, which throws a `RangeError` when the
buffer is shorter than `k` bytes and otherwise reads the first `k` bytes. -/
def intDecodeLoose (k : Nat) (littleEndian : Bool) (b : Bytes) :
    Except DecodeError Int :=
  if b.length < k then .error .outOfBounds
  else
    let buffer := b.take k
    .ok (asSigned k (fromLEBytes (if littleEndian then buffer else buffer.reverse)))

/-- Model of `Codec<NumLike, V>`: `Codec.from` stores an optional static byte length,
an encode function and a decode function, performing no validation. -/
structure Codec (V : Type) where
  byteLength : Option Nat
  encode : V → Bytes
  decode : Bytes → Except DecodeError V

/-- Decidable equality of decode results, used to evaluate witnesses. -/
instance exceptDecEq {E A : Type} [DecidableEq E] [DecidableEq A] :
    DecidableEq (Except E A) := fun a b =>
  match a, b with
  | .ok x, .ok y =>
    if h : x = y then .isTrue (by rw [h]) else .isFalse (by simp [h])
  | .error e, .error f =>
    if h : e = f then .isTrue (by rw [h]) else .isFalse (by simp [h])
  | .ok _, .error _ => .isFalse (by simp)
  | .error _, .ok _ => .isFalse (by simp)

/-- The 4-byte little-endian header/offset field used by the vector layouts. -/
def u32LE (n : Nat) : Bytes := toLEBytes 4 n

/-- Modelled from the spec: the `option` combinator of `codec.js` (the file is
not under `src/`).  `encode(absent)` is the empty buffer, `encode(present(v))`
is the inner encoding; `decode` maps the empty buffer to `absent` and any
non-empty buffer to `present` of the inner decode, propagating inner failures
unchanged; the produced codec has no static length. -/
def option {V : Type} (inner : Codec V) : Codec (Option V) where
  byteLength := none
  encode := fun v =>
    match v with
    | none => []
    | some x => inner.encode x
  decode := fun b =>
    if b.isEmpty then .ok none
    else (inner.decode b).map some

/-- Decidable check that a list of offsets is non-decreasing. -/
def offsetsSorted : List Nat → Bool
  | [] => true
  | [_] => true
  | o1 :: o2 :: rest => o1 ≤ o2 && offsetsSorted (o2 :: rest)

/-- Modelled from the spec: item decoding loop of the variable-item vector
layout — item `i` is decoded from the byte range `[offset[i], offset[i+1])`,
an inner failure being tagged with the failing index. -/
def decodeItemsFrom {V : Type} (inner : Codec V) (b : Bytes) :
    Nat → List Nat → Except DecodeError (List V)
  | _, [] => .ok []
  | _, [_] => .ok []
  | i, o1 :: o2 :: rest => do
    let v ← (inner.decode ((b.take o2).drop o1)).mapError (DecodeError.atIndex i)
    let vs ← decodeItemsFrom inner b (i + 1) (o2 :: rest)
    pure (v :: vs)

/-- Modelled from the spec: item decoding loop of the fixed-item vector
layout — `cnt` consecutive `L`-byte chunks of `body` are decoded in order,
an inner failure being tagged with the failing index. -/
def decodeChunks {V : Type} (inner : Codec V) (L : Nat) :
    Nat → Bytes → Nat → Except DecodeError (List V)
  | _, _, 0 => .ok []
  | i, body, cnt + 1 => do
    let v ← (inner.decode (body.take L)).mapError (DecodeError.atIndex i)
    let vs ← decodeChunks inner L (i + 1) (body.drop L) cnt
    pure (v :: vs)

/-- Modelled from the spec: fixed-item vector encoding — a 4-byte
little-endian item count followed by the concatenated item encodings. -/
def fixedVecEncode {V : Type} (inner : Codec V) (items : List V) : Bytes :=
  u32LE items.length ++ (items.map inner.encode).flatten

/-- Modelled from the spec: fixed-item vector decoding — read the 4-byte
count header, verify the remaining buffer length equals exactly `count * L`,
then slice and decode the `L`-byte chunks in order. -/
def fixedVecDecode {V : Type} (inner : Codec V) (L : Nat) (b : Bytes) :
    Except DecodeError (List V) :=
  if b.length < 4 then .error .outOfBounds
  else
    let cnt := fromLEBytes (b.take 4)
    let body := b.drop 4
    if body.length ≠ cnt * L then .error (.itemBodySize (cnt * L) body.length)
    else decodeChunks inner L 0 body cnt

/-- Modelled from the spec: variable-item vector encoding — a 4-byte
little-endian total length (covering the whole encoding), then `N+1`
little-endian offsets (offset `i` is the position of item `i`'s first byte,
offset `N` the total length), then the item encodings back-to-back.
`offsetsFrom a lens` lists the item positions when the first item starts at
byte `a` and the items have sizes `lens`, ending with the position one past
the last item. -/
def offsetsFrom (a : Nat) : List Nat → List Nat
  | [] => [a]
  | l :: ls => a :: offsetsFrom (a + l) ls

/-- Modelled from the spec: variable-item vector encoding (continued) — the
full encoding built from the total length, the offset table and the payload. -/
def varVecEncode {V : Type} (inner : Codec V) (items : List V) : Bytes :=
  let encs := items.map inner.encode
  let headerSize := 4 * (items.length + 2)
  let offsets := offsetsFrom headerSize (encs.map List.length)
  let total := headerSize + (encs.map List.length).sum
  u32LE total ++ (offsets.map u32LE).flatten ++ encs.flatten

/-- Modelled from the spec: variable-item vector decoding — verify the
total-length field equals the buffer length, read the offset table (the item
count follows from the first offset, which must point exactly past the
header and offset table), verify the offsets are non-decreasing and the last
offset equals the total length, then decode item `i` from
`[offset[i], offset[i+1])`. -/
def varVecDecode {V : Type} (inner : Codec V) (b : Bytes) :
    Except DecodeError (List V) :=
  if b.length < 4 then .error .outOfBounds
  else
    let total := fromLEBytes (b.take 4)
    if total ≠ b.length then .error (.totalLengthMismatch total b.length)
    else if b.length < 8 then .error .outOfBounds
    else
      let o0 := fromLEBytes ((b.drop 4).take 4)
      if o0 % 4 ≠ 0 ∨ o0 < 8 then .error .offsetTable
      else
        let N := o0 / 4 - 2
        if b.length < 4 * (N + 2) then .error .outOfBounds
        else
          let offsets := (List.range (N + 1)).map
            fun i => fromLEBytes ((b.drop (4 * (i + 1))).take 4)
          if ¬ offsetsSorted offsets then .error .offsetTable
          else if offsets.getLast? ≠ some total then .error .offsetTable
          else decodeItemsFrom inner b 0 offsets

/-- Modelled from the spec: the `vector` combinator of `codec.js` (the file
is not under `src/`).  It picks the fixed-item layout when the inner codec
declares a static length and the variable-item (offset-table) layout
otherwise; the produced codec has no static length. -/
def vector {V : Type} (inner : Codec V) : Codec (List V) where
  byteLength := none
  encode := fun items =>
    match inner.byteLength with
    | some _ => fixedVecEncode inner items
    | none => varVecEncode inner items
  decode := fun b =>
    match inner.byteLength with
    | some L => fixedVecDecode inner L b
    | none => varVecDecode inner b

namespace part000

/-- Model of `Int8` of `part_000`: its `Codec.from` call passes no `byteLength`,
so the codec declares no static length; decode enforces exactly one byte
via `fixedBytesFrom`. -/
def Int8 : Codec Int where
  byteLength := none
  encode := intEncode 1 true
  decode := intDecodeStrict 1 true

/-- Model of `Int8Opt = option(Int8)` of `part_000`. -/
def Int8Opt : Codec (Option Int) := option Int8

/-- Model of `Int8Vec = vector(Int8)` of `part_000`. -/
def Int8Vec : Codec (List Int) := vector Int8

/-- Model of `int16Number(littleEndian)` of `part_000`: `byteLength` 2, strict decode. -/
def int16Number (littleEndian : Bool) : Codec Int where
  byteLength := some 2
  encode := intEncode 2 littleEndian
  decode := intDecodeStrict 2 littleEndian

def Int16LE : Codec Int := int16Number true
def Int16BE : Codec Int := int16Number false
def Int16 : Codec Int := Int16LE
def Int16Opt : Codec (Option Int) := option Int16
def Int16Vec : Codec (List Int) := vector Int16

/-- Model of `int32Number(littleEndian)` of `part_000`: `byteLength` 4, strict decode. -/
def int32Number (littleEndian : Bool) : Codec Int where
  byteLength := some 4
  encode := intEncode 4 littleEndian
  decode := intDecodeStrict 4 littleEndian

def Int32LE : Codec Int := int32Number true
def Int32BE : Codec Int := int32Number false
def Int32 : Codec Int := Int32LE
def Int32Opt : Codec (Option Int) := option Int32
def Int32Vec : Codec (List Int) := vector Int32

/-- Model of `int64(littleEndian)` of `part_000`: `byteLength` 8, strict decode;
values are arbitrary-precision integers (`BigInt` in the source). -/
def int64 (littleEndian : Bool) : Codec Int where
  byteLength := some 8
  encode := intEncode 8 littleEndian
  decode := intDecodeStrict 8 littleEndian

def Int64LE : Codec Int := int64 true
def Int64BE : Codec Int := int64 false
def Int64 : Codec Int := Int64LE
def Int64Opt : Codec (Option Int) := option Int64
def Int64Vec : Codec (List Int) := vector Int64

/-- The primitive codec of `part_000` for a width of `k` bytes and the given
endianness (the `k ∉ {1, 2, 4, 8}` case is unreachable under the claims'
hypotheses). -/
def primOfWidth : Nat → Bool → Codec Int
  | 1, _ => Int8
  | 2, le => int16Number le
  | 4, le => int32Number le
  | 8, le => int64 le
  | _, _ => Int8

end part000

namespace molsig

/-- Model of `Int8` of `signed.ts`: declares `byteLength: 1`; decode reads from the
`DataView` with no explicit length check. -/
def Int8 : Codec Int where
  byteLength := some 1
  encode := intEncode 1 true
  decode := intDecodeLoose 1 true

/-- Model of `Int8Opt = option(Int8)` of `signed.ts`. -/
def Int8Opt : Codec (Option Int) := option Int8

/-- Model of `Int8Vec = vector(Int8)` of `signed.ts`. -/
def Int8Vec : Codec (List Int) := vector Int8

/-- Model of `int16Number(littleEndian)` of `signed.ts`: `byteLength` 2, loose decode. -/
def int16Number (littleEndian : Bool) : Codec Int where
  byteLength := some 2
  encode := intEncode 2 littleEndian
  decode := intDecodeLoose 2 littleEndian

def Int16LE : Codec Int := int16Number true
def Int16BE : Codec Int := int16Number false
def Int16 : Codec Int := Int16LE
def Int16Opt : Codec (Option Int) := option Int16
def Int16Vec : Codec (List Int) := vector Int16

/-- Model of `int32Number(littleEndian)` of `signed.ts`: `byteLength` 4, loose decode. -/
def int32Number (littleEndian : Bool) : Codec Int where
  byteLength := some 4
  encode := intEncode 4 littleEndian
  decode := intDecodeLoose 4 littleEndian

def Int32LE : Codec Int := int32Number true
def Int32BE : Codec Int := int32Number false
def Int32 : Codec Int := Int32LE
def Int32Opt : Codec (Option Int) := option Int32
def Int32Vec : Codec (List Int) := vector Int32

/-- Model of `int64(littleEndian)` of `signed.ts`: `byteLength` 8, loose decode;
values are arbitrary-precision integers (`BigInt` in the source). -/
def int64 (littleEndian : Bool) : Codec Int where
  byteLength := some 8
  encode := intEncode 8 littleEndian
  decode := intDecodeLoose 8 littleEndian

def Int64LE : Codec Int := int64 true
def Int64BE : Codec Int := int64 false
def Int64 : Codec Int := Int64LE
def Int64Opt : Codec (Option Int) := option Int64
def Int64Vec : Codec (List Int) := vector Int64

/-- The primitive codec of `signed.ts` for a width of `k` bytes and the given
endianness (the `k ∉ {1, 2, 4, 8}` case is unreachable under the claims'
hypotheses). -/
def primOfWidth : Nat → Bool → Codec Int
  | 1, _ => Int8
  | 2, le => int16Number le
  | 4, le => int32Number le
  | 8, le => int64 le
  | _, _ => Int8

end molsig

/- Basic facts about the byte-level primitives. -/

theorem toLEBytes_length (k val : Nat) : (toLEBytes k val).length = k := by
  induction k generalizing val with
  | zero => rfl
  | succ k ih => simp [toLEBytes, ih]

theorem fromLEBytes_toLEBytes (k val : Nat) :
    fromLEBytes (toLEBytes k val) = val % 256 ^ k := by
  induction k generalizing val with
  | zero => simp [toLEBytes, fromLEBytes, Nat.mod_one]
  | succ k ih =>
    simp only [toLEBytes, fromLEBytes, ih]
    have h1 : val / 256 % 256 ^ k = val % (256 * 256 ^ k) / 256 :=
      (Nat.mod_mul_right_div_self val 256 (256 ^ k)).symm
    have h2 : val % 256 = val % (256 * 256 ^ k) % 256 :=
      (Nat.mod_mod_of_dvd val (dvd_mul_right 256 (256 ^ k))).symm
    rw [pow_succ', h1, h2]
    exact Nat.mod_add_div _ 256

/- Round-trip facts for the primitive integer codecs. -/

theorem intEncode_length (k : Nat) (le : Bool) (n : Int) :
    (intEncode k le n).length = k := by
  unfold intEncode
  cases le <;> simp [toLEBytes_length]

theorem emod_toNat_lt (k : Nat) (n : Int) :
    (n % ((2 : Int) ^ (8 * k))).toNat < 256 ^ k := by
  have hpow : ((2 : Int) ^ (8 * k)) = ((256 ^ k : Nat) : Int) := by
    rw [pow_mul]; push_cast; norm_num
  have hpos : (0 : Int) < 2 ^ (8 * k) := by positivity
  have hlt : n % 2 ^ (8 * k) < 2 ^ (8 * k) := Int.emod_lt_of_pos n hpos
  rw [hpow] at hlt
  omega

theorem intDecode_core (k : Nat) (le : Bool) (n : Int) :
    asSigned k (fromLEBytes
      (if le then intEncode k le n else (intEncode k le n).reverse))
      = asSigned k ((n % ((2 : Int) ^ (8 * k))).toNat) := by
  have hm := emod_toNat_lt k n
  cases le <;>
    simp [intEncode, List.reverse_reverse, fromLEBytes_toLEBytes,
      Nat.mod_eq_of_lt hm]

theorem intDecodeStrict_intEncode (k : Nat) (le : Bool) (n : Int) :
    intDecodeStrict k le (intEncode k le n)
      = .ok (asSigned k ((n % ((2 : Int) ^ (8 * k))).toNat)) := by
  have hcore := intDecode_core k le n
  unfold intDecodeStrict fixedBytesFrom
  rw [intEncode_length, if_neg (by omega)]
  exact congrArg Except.ok hcore

theorem intDecodeLoose_intEncode (k : Nat) (le : Bool) (n : Int) :
    intDecodeLoose k le (intEncode k le n)
      = .ok (asSigned k ((n % ((2 : Int) ^ (8 * k))).toNat)) := by
  have hcore := intDecode_core k le n
  unfold intDecodeLoose
  rw [intEncode_length, if_neg (lt_irrefl k)]
  simp only [List.take_of_length_le (le_of_eq (intEncode_length k le n))]
  exact congrArg Except.ok hcore

theorem asSigned_emod_of_range (k : Nat) (n : Int) (hk : 1 ≤ k)
    (hlo : -(2 ^ (8 * k - 1)) ≤ n) (hhi : n < 2 ^ (8 * k - 1)) :
    asSigned k ((n % ((2 : Int) ^ (8 * k))).toNat) = n := by
  have hw : 8 * k - 1 + 1 = 8 * k := by omega
  have hpow : (2 : Int) ^ (8 * k) = 2 ^ (8 * k - 1) * 2 := by
    rw [← pow_succ, hw]
  have hP : (0 : Int) < 2 ^ (8 * k - 1) := by positivity
  have hNpow : ((2 ^ (8 * k - 1) : Nat) : Int) = 2 ^ (8 * k - 1) := by push_cast; ring
  unfold asSigned
  rcases le_or_lt 0 n with hn | hn
  · have hmod : n % 2 ^ (8 * k) = n := Int.emod_eq_of_lt hn (by rw [hpow]; omega)
    rw [hmod, if_pos (by omega)]
    omega
  · have hmod : n % 2 ^ (8 * k) = n + 2 ^ (8 * k) := by
      have h1 : (n + 2 ^ (8 * k) * 1) % 2 ^ (8 * k) = n % 2 ^ (8 * k) :=
        Int.add_mul_emod_self_left n (2 ^ (8 * k)) 1
      have h2 : (n + 2 ^ (8 * k)) % 2 ^ (8 * k) = n + 2 ^ (8 * k) :=
        Int.emod_eq_of_lt (by rw [hpow]; omega) (by rw [hpow]; omega)
      rw [mul_one] at h1
      omega
    rw [hmod, if_neg (by rw [hpow] at *; omega)]
    rw [hpow] at *
    omega

theorem roundtrip_strict (k : Nat) (le : Bool) (n : Int) (hk : 1 ≤ k)
    (hlo : -(2 ^ (8 * k - 1)) ≤ n) (hhi : n < 2 ^ (8 * k - 1)) :
    intDecodeStrict k le (intEncode k le n) = .ok n := by
  rw [intDecodeStrict_intEncode, asSigned_emod_of_range k n hk hlo hhi]

theorem roundtrip_loose (k : Nat) (le : Bool) (n : Int) (hk : 1 ≤ k)
    (hlo : -(2 ^ (8 * k - 1)) ≤ n) (hhi : n < 2 ^ (8 * k - 1)) :
    intDecodeLoose k le (intEncode k le n) = .ok n := by
  rw [intDecodeLoose_intEncode, asSigned_emod_of_range k n hk hlo hhi]

/-- C1: for every primitive signed-integer codec of width w in {8,16,32,64}
bits and either endianness (in both source variants), and every integer n in
the representable signed range, decode(encode(n)) = n. -/
theorem claim_c1_signed_roundtrip (k : Nat) (le : Bool) (n : Int)
    (hk : k = 1 ∨ k = 2 ∨ k = 4 ∨ k = 8)
    (hlo : -(2 ^ (8 * k - 1)) ≤ n) (hhi : n < 2 ^ (8 * k - 1)) :
    (part000.primOfWidth k le).decode ((part000.primOfWidth k le).encode n)
        = .ok n ∧
    (molsig.primOfWidth k le).decode ((molsig.primOfWidth k le).encode n)
        = .ok n := by
  rcases hk with h | h | h | h <;> subst h <;> cases le <;>
    refine ⟨?_, ?_⟩ <;>
    simp only [part000.primOfWidth, molsig.primOfWidth, part000.Int8,
      part000.int16Number, part000.int32Number, part000.int64, molsig.Int8,
      molsig.int16Number, molsig.int32Number, molsig.int64] <;>
    first
    | exact roundtrip_strict _ _ n (by omega) hlo hhi
    | exact roundtrip_loose _ _ n (by omega) hlo hhi

/-- Witness for C1 at width 32 bits, little-endian, n = -2. -/
theorem claim_c1_signed_roundtrip_witness :
    (part000.primOfWidth 4 true).decode ((part000.primOfWidth 4 true).encode (-2))
        = .ok (-2) ∧
    (molsig.primOfWidth 4 true).decode ((molsig.primOfWidth 4 true).encode (-2))
        = .ok (-2) :=
  claim_c1_signed_roundtrip 4 true (-2) (by omega) (by decide) (by decide)

/-- C8: byte-exact two's-complement with the declared endianness, in both
source variants: Int16LE.encode(1) = [0x01, 0x00], Int16BE.encode(1) =
[0x00, 0x01], Int32LE.encode(-1) = [0xFF, 0xFF, 0xFF, 0xFF]. -/
theorem claim_c8_byte_exact :
    part000.Int16LE.encode 1 = [0x01, 0x00] ∧
    part000.Int16BE.encode 1 = [0x00, 0x01] ∧
    part000.Int32LE.encode (-1) = [0xFF, 0xFF, 0xFF, 0xFF] ∧
    molsig.Int16LE.encode 1 = [0x01, 0x00] ∧
    molsig.Int16BE.encode 1 = [0x00, 0x01] ∧
    molsig.Int32LE.encode (-1) = [0xFF, 0xFF, 0xFF, 0xFF] := by
  decide

theorem toLEBytes_getElem (k val i : Nat) (h : i < k) :
    (toLEBytes k val)[i]? = some (val / 256 ^ i % 256) := by
  induction k generalizing val i with
  | zero => omega
  | succ k ih =>
    cases i with
    | zero => simp [toLEBytes]
    | succ i =>
      have hrec := ih (val / 256) i (by omega)
      simp only [toLEBytes, List.getElem?_cons_succ, hrec,
        Nat.div_div_eq_div_mul]
      rw [pow_succ']

theorem intEncode_getElem (k : Nat) (le : Bool) (n : Int) (i : Nat) (hi : i < k) :
    (intEncode k le n)[(if le then i else k - 1 - i)]?
      = some ((n % ((2 : Int) ^ (8 * k))).toNat / 256 ^ i % 256) := by
  unfold intEncode
  cases le
  · have hlen : (toLEBytes k ((n % ((2 : Int) ^ (8 * k))).toNat)).length = k :=
      toLEBytes_length _ _
    simp only [Bool.false_eq_true, if_false, ite_false]
    rw [List.getElem?_reverse (by rw [hlen]; omega), hlen]
    rw [show k - 1 - (k - 1 - i) = i from by omega]
    exact toLEBytes_getElem k _ i hi
  · simp only [if_true, ite_true]
    exact toLEBytes_getElem k _ i hi

/-- C9: for every primitive signed-integer codec of width w (in both source
variants) and every integer n, encode(n) succeeds and is the w/8-byte
two's-complement encoding of n reduced modulo 2^w — its byte at little-endian
position i is ((n mod 2^w) / 256^i) mod 256; in particular Int8.encode(128)
yields the single byte 0x80, which decodes back to -128. -/
theorem claim_c9_encode_wraps (k : Nat) (le : Bool) (n : Int) (i : Nat)
    (hk : k = 1 ∨ k = 2 ∨ k = 4 ∨ k = 8) (hi : i < k) :
    ((part000.primOfWidth k le).encode n).length = k ∧
    (molsig.primOfWidth k le).encode n = (part000.primOfWidth k le).encode n ∧
    ((part000.primOfWidth k le).encode n)[(if le then i else k - 1 - i)]?
      = some ((n % ((2 : Int) ^ (8 * k))).toNat / 256 ^ i % 256) ∧
    part000.Int8.encode 128 = [0x80] ∧
    part000.Int8.decode [0x80] = .ok (-128) ∧
    molsig.Int8.encode 128 = [0x80] ∧
    molsig.Int8.decode [0x80] = .ok (-128) := by
  refine ⟨?_, ?_, ?_, by decide, by decide, by decide, by decide⟩ <;>
    rcases hk with h | h | h | h <;> subst h <;> cases le <;>
    simp only [part000.primOfWidth, molsig.primOfWidth, part000.Int8,
      part000.int16Number, part000.int32Number, part000.int64, molsig.Int8,
      molsig.int16Number, molsig.int32Number, molsig.int64] <;>
    first
    | exact intEncode_length _ _ n
    | rfl
    | exact intEncode_getElem _ _ n i hi

theorem intDecodeStrict_wrong_length (k : Nat) (le : Bool) (b : Bytes)
    (h : b.length ≠ k) :
    intDecodeStrict k le b = .error (.invalidBufferSize k b.length) := by
  unfold intDecodeStrict fixedBytesFrom
  rw [if_pos h]
  rfl

theorem intDecodeStrict_right_length (k : Nat) (le : Bool) (b : Bytes)
    (h : b.length = k) :
    ∃ v, intDecodeStrict k le b = .ok v := by
  unfold intDecodeStrict fixedBytesFrom
  rw [if_neg (by omega)]
  exact ⟨_, rfl⟩

/-- C2 (amended): the primitive codecs of `part_000` enforce the exact buffer
length: decode fails with the invalid-buffer-size error carrying the expected
and actual sizes whenever the length differs from w/8, and succeeds otherwise;
in particular decoding a 3-byte buffer with `part_000`'s Int32LE fails
reporting expected 4, actual 3.  (The `signed.ts` codecs do not enforce this —
see the counterexample — they only fail on buffers shorter than staticLength.) -/
theorem claim_c2_length_enforcement (k : Nat) (le : Bool) (b : Bytes)
    (hk : k = 1 ∨ k = 2 ∨ k = 4 ∨ k = 8) :
    (b.length ≠ k →
      (part000.primOfWidth k le).decode b
        = .error (.invalidBufferSize k b.length)) ∧
    (b.length = k → ∃ v, (part000.primOfWidth k le).decode b = .ok v) ∧
    part000.Int32LE.decode [0, 0, 0] = .error (.invalidBufferSize 4 3) := by
  refine ⟨?_, ?_, by decide⟩ <;>
    rcases hk with h | h | h | h <;> subst h <;> cases le <;>
    simp only [part000.primOfWidth, part000.Int8, part000.int16Number,
      part000.int32Number, part000.int64] <;>
    first
    | exact intDecodeStrict_wrong_length _ _ b
    | exact intDecodeStrict_right_length _ _ b

/-- Witness for C2 (amended) at width 16 bits on a 3-byte buffer. -/
theorem claim_c2_length_enforcement_witness :
    (([1, 2, 3] : Bytes).length ≠ 2 →
      (part000.primOfWidth 2 true).decode [1, 2, 3]
        = .error (.invalidBufferSize 2 ([1, 2, 3] : Bytes).length)) ∧
    (([1, 2, 3] : Bytes).length = 2 →
      ∃ v, (part000.primOfWidth 2 true).decode [1, 2, 3] = .ok v) ∧
    part000.Int32LE.decode [0, 0, 0] = .error (.invalidBufferSize 4 3) :=
  claim_c2_length_enforcement 2 true [1, 2, 3] (Or.inr (Or.inl rfl))

/-- Counterexample to C2 as stated: `signed.ts`'s Int32LE declares
staticLength 4, yet decoding a 5-byte buffer succeeds instead of failing. -/
theorem claim_c2_counterexample :
    molsig.Int32LE.byteLength = some 4 ∧
    ([0, 0, 0, 0, 0] : Bytes).length ≠ 4 ∧
    molsig.Int32LE.decode [0, 0, 0, 0, 0] = .ok 0 := by
  decide

/-- C3 (amended): encode never fails — for every integer n (also outside the
representable range) it writes exactly w/8 bytes, whose two's-complement
reading is n reduced modulo 2^w (so for in-range n it round-trips to n, C1). -/
theorem claim_c3_encode_total (k : Nat) (le : Bool) (n : Int)
    (hk : k = 1 ∨ k = 2 ∨ k = 4 ∨ k = 8) :
    ((part000.primOfWidth k le).encode n).length = k ∧
    (part000.primOfWidth k le).decode ((part000.primOfWidth k le).encode n)
      = .ok (asSigned k ((n % ((2 : Int) ^ (8 * k))).toNat)) ∧
    ((molsig.primOfWidth k le).encode n).length = k ∧
    (molsig.primOfWidth k le).decode ((molsig.primOfWidth k le).encode n)
      = .ok (asSigned k ((n % ((2 : Int) ^ (8 * k))).toNat)) := by
  rcases hk with h | h | h | h <;> subst h <;> cases le <;>
    simp only [part000.primOfWidth, molsig.primOfWidth, part000.Int8,
      part000.int16Number, part000.int32Number, part000.int64, molsig.Int8,
      molsig.int16Number, molsig.int32Number, molsig.int64] <;>
    exact ⟨intEncode_length _ _ n, intDecodeStrict_intEncode _ _ n,
           intEncode_length _ _ n, intDecodeLoose_intEncode _ _ n⟩

/-- Witness for C3 (amended) at width 16 bits, big-endian, on the
out-of-range input 70000. -/
theorem claim_c3_encode_total_witness :
    ((part000.primOfWidth 2 false).encode 70000).length = 2 ∧
    (part000.primOfWidth 2 false).decode
        ((part000.primOfWidth 2 false).encode 70000)
      = .ok (asSigned 2 (((70000 : Int) % ((2 : Int) ^ (8 * 2))).toNat)) ∧
    ((molsig.primOfWidth 2 false).encode 70000).length = 2 ∧
    (molsig.primOfWidth 2 false).decode
        ((molsig.primOfWidth 2 false).encode 70000)
      = .ok (asSigned 2 (((70000 : Int) % ((2 : Int) ^ (8 * 2))).toNat)) :=
  claim_c3_encode_total 2 false 70000 (Or.inr (Or.inl rfl))

/-- Counterexample to C3 as stated: 128 lies outside the signed 8-bit range
-128..127, yet Int8.encode(128) does not fail — in both source variants it
yields the byte 0x80, which decodes to -128. -/
theorem claim_c3_counterexample :
    (127 : Int) < 128 ∧
    part000.Int8.encode 128 = [0x80] ∧
    part000.Int8.decode (part000.Int8.encode 128) = .ok (-128) ∧
    molsig.Int8.encode 128 = [0x80] := by
  decide

/-- C7: the claim's invariant len(encode(v)) = w/8 holds everywhere, and the
`signed.ts` primitives declare staticLength = w/8; but `part_000`'s Int8
declares no byteLength at all (the sibling declaration in `signed.ts` passes
`byteLength: 1`), so its staticLength is absent, contradicting the claim. -/
theorem claim_c7_staticLength_bug :
    part000.Int8.byteLength = none ∧
    molsig.Int8.byteLength = some 1 ∧
    part000.Int16LE.byteLength = some 2 ∧
    part000.Int32LE.byteLength = some 4 ∧
    part000.Int64LE.byteLength = some 8 ∧
    ∀ n : Int, (part000.Int8.encode n).length = 1
      ∧ (molsig.Int8.encode n).length = 1 :=
  ⟨rfl, rfl, rfl, rfl, rfl,
   fun n => ⟨intEncode_length 1 true n, intEncode_length 1 true n⟩⟩

theorem intDecodeLoose_take (k : Nat) (le : Bool) (b : Bytes)
    (h : k ≤ b.length) :
    intDecodeLoose k le b = intDecodeLoose k le (b.take k) ∧
    ∃ v, intDecodeLoose k le b = .ok v := by
  unfold intDecodeLoose
  rw [List.length_take, if_neg (by omega), if_neg (by omega),
    List.take_take, min_self]
  exact ⟨rfl, _, rfl⟩

/-- C10: every primitive codec of `signed.ts`, applied to a buffer at least
staticLength bytes long, decodes successfully to the value carried by the
first staticLength bytes, ignoring the trailing bytes. -/
theorem claim_c10_trailing_ignored (k : Nat) (le : Bool) (b : Bytes)
    (hk : k = 1 ∨ k = 2 ∨ k = 4 ∨ k = 8) (hlen : k ≤ b.length) :
    (molsig.primOfWidth k le).decode b
        = (molsig.primOfWidth k le).decode (b.take k) ∧
    ∃ v, (molsig.primOfWidth k le).decode b = .ok v := by
  rcases hk with h | h | h | h <;> subst h <;> cases le <;>
    simp only [molsig.primOfWidth, molsig.Int8, molsig.int16Number,
      molsig.int32Number, molsig.int64] <;>
    exact intDecodeLoose_take _ _ b hlen

/-- Witness for C10: Int8 of `signed.ts` on the 2-byte buffer [200, 7]. -/
theorem claim_c10_trailing_ignored_witness :
    (molsig.primOfWidth 1 true).decode [200, 7]
        = (molsig.primOfWidth 1 true).decode (([200, 7] : Bytes).take 1) ∧
    ∃ v, (molsig.primOfWidth 1 true).decode [200, 7] = .ok v :=
  claim_c10_trailing_ignored 1 true [200, 7] (Or.inl rfl) (by decide)

/- Facts about the variable-item vector layout. -/

theorem u32LE_length (n : Nat) : (u32LE n).length = 4 :=
  toLEBytes_length 4 n

theorem fromLEBytes_u32LE (n : Nat) (h : n < 2 ^ 32) :
    fromLEBytes (u32LE n) = n := by
  rw [u32LE, fromLEBytes_toLEBytes]
  exact Nat.mod_eq_of_lt (by norm_num at h ⊢; omega)

theorem offsetsFrom_length (a : Nat) (ls : List Nat) :
    (offsetsFrom a ls).length = ls.length + 1 := by
  induction ls generalizing a with
  | nil => rfl
  | cons l ls ih => simp [offsetsFrom, ih]

theorem offsetsFrom_cons_form (a : Nat) (ls : List Nat) :
    ∃ t, offsetsFrom a ls = a :: t := by
  cases ls <;> exact ⟨_, rfl⟩

theorem offsetsFrom_getLast? (a : Nat) (ls : List Nat) :
    (offsetsFrom a ls).getLast? = some (a + ls.sum) := by
  induction ls generalizing a with
  | nil => simp [offsetsFrom]
  | cons l ls ih =>
    obtain ⟨t, ht⟩ := offsetsFrom_cons_form (a + l) ls
    rw [offsetsFrom, ht, List.getLast?_cons_cons, ← ht, ih]
    simp only [List.sum_cons]
    congr 1
    omega

theorem offsetsSorted_offsetsFrom (a : Nat) (ls : List Nat) :
    offsetsSorted (offsetsFrom a ls) = true := by
  induction ls generalizing a with
  | nil => rfl
  | cons l ls ih =>
    obtain ⟨t, ht⟩ := offsetsFrom_cons_form (a + l) ls
    rw [offsetsFrom, ht, offsetsSorted, ← ht, ih]
    simp

theorem offsetsFrom_getD (a i : Nat) (ls : List Nat) (h : i < ls.length + 1) :
    (offsetsFrom a ls).getD i 0 = a + (ls.take i).sum := by
  induction ls generalizing a i with
  | nil =>
    simp only [List.length_nil] at h
    have hi : i = 0 := by omega
    subst hi
    simp [offsetsFrom]
  | cons l ls ih =>
    cases i with
    | zero => simp [offsetsFrom]
    | succ i =>
      rw [offsetsFrom]
      simp only [List.getD_cons_succ, List.take_succ_cons, List.sum_cons]
      rw [ih (a + l) i (by simp at h; omega)]
      omega

theorem length_flatten_u32LE (ws : List Nat) :
    ((ws.map u32LE).flatten).length = 4 * ws.length := by
  induction ws with
  | nil => rfl
  | cons w ws ih =>
    simp only [List.map_cons, List.flatten_cons, List.length_append,
      u32LE_length, List.length_cons, ih]
    ring

theorem read_u32_table (ws : List Nat) (rest : Bytes) (i : Nat)
    (h : i < ws.length) :
    (((ws.map u32LE).flatten ++ rest).drop (4 * i)).take 4
      = u32LE (ws.getD i 0) := by
  induction ws generalizing i rest with
  | nil => simp only [List.length_nil] at h; omega
  | cons w ws ih =>
    cases i with
    | zero =>
      simp only [List.map_cons, List.flatten_cons, Nat.mul_zero,
        List.drop_zero, List.getD_cons_zero, List.append_assoc]
      rw [List.take_append_eq_append_take, List.take_of_length_le (by
        rw [u32LE_length]), u32LE_length, Nat.sub_self, List.take_zero,
        List.append_nil]
    | succ i =>
      simp only [List.map_cons, List.flatten_cons, List.getD_cons_succ,
        List.append_assoc]
      rw [show 4 * (i + 1) = (u32LE w).length + 4 * i from by
        rw [u32LE_length]; ring]
      rw [List.drop_append]
      exact ih rest i (by simp at h; omega)

theorem slice_append (pre mid post : Bytes) :
    ((pre ++ mid ++ post).take (pre.length + mid.length)).drop pre.length
      = mid := by
  rw [List.append_assoc]
  have h1 : (pre ++ (mid ++ post)).take (pre.length + mid.length)
      = pre ++ (mid ++ post).take mid.length := by
    rw [List.take_append_eq_append_take,
      List.take_of_length_le (by omega)]
    congr 2
    omega
  rw [h1, List.take_left, List.drop_left]

theorem decodeItemsFrom_spec {V : Type} (inner : Codec V) (items : List V)
    (pre rest : Bytes) (i : Nat)
    (hrt : ∀ x ∈ items, inner.decode (inner.encode x) = .ok x) :
    decodeItemsFrom inner (pre ++ (items.map inner.encode).flatten ++ rest) i
      (offsetsFrom pre.length ((items.map inner.encode).map List.length))
      = .ok items := by
  induction items generalizing pre i with
  | nil => rfl
  | cons x xs ih =>
    simp only [List.map_cons, List.flatten_cons, offsetsFrom]
    obtain ⟨t, ht⟩ := offsetsFrom_cons_form
      (pre.length + (inner.encode x).length) ((xs.map inner.encode).map List.length)
    rw [ht, decodeItemsFrom]
    have hslice :
        (((pre ++ (inner.encode x ++ (xs.map inner.encode).flatten) ++ rest).take
            (pre.length + (inner.encode x).length)).drop pre.length)
          = inner.encode x := by
      have := slice_append pre (inner.encode x)
        ((xs.map inner.encode).flatten ++ rest)
      simpa [List.append_assoc] using this
    rw [hslice, hrt x (by simp)]
    have hrec := ih (pre ++ inner.encode x) (i + 1)
      (fun y hy => hrt y (by simp [hy]))
    rw [List.length_append] at hrec
    rw [← ht]
    have hrec' : decodeItemsFrom inner
        (pre ++ (inner.encode x ++ (xs.map inner.encode).flatten) ++ rest)
        (i + 1)
        (offsetsFrom (pre.length + (inner.encode x).length)
          ((xs.map inner.encode).map List.length)) = .ok xs := by
      simpa [List.append_assoc] using hrec
    simp only [hrec']
    rfl

theorem map_getD_range {A : Type} (d : A) (l : List A) :
    (List.range l.length).map (fun i => l.getD i d) = l := by
  induction l with
  | nil => rfl
  | cons x xs ih =>
    rw [List.length_cons, List.range_succ_eq_map, List.map_cons, List.map_map]
    simp only [List.getD_cons_zero, Function.comp_def, Nat.succ_eq_add_one,
      List.getD_cons_succ]
    rw [ih]

theorem sum_take_le (l : List Nat) (i : Nat) : (l.take i).sum ≤ l.sum := by
  have h := List.sum_take_add_sum_drop l i
  omega

theorem sum_map_length_u32LE (ws : List Nat) :
    ((ws.map u32LE).map List.length).sum = 4 * ws.length := by
  induction ws with
  | nil => rfl
  | cons w ws ih =>
    simp only [List.map_cons, List.sum_cons, u32LE_length, List.length_cons, ih]
    ring

theorem take4_u32LE (n : Nat) (rest : Bytes) :
    (u32LE n ++ rest).take 4 = u32LE n := by
  rw [List.take_append_eq_append_take,
    List.take_of_length_le (by rw [u32LE_length]), u32LE_length,
    Nat.sub_self, List.take_zero, List.append_nil]

theorem drop4_u32LE (n : Nat) (rest : Bytes) :
    (u32LE n ++ rest).drop 4 = rest := by
  rw [show (4 : Nat) = (u32LE n).length from (u32LE_length n).symm,
    List.drop_left]

theorem varVecEncode_def {V : Type} (inner : Codec V) (items : List V) :
    varVecEncode inner items
      = u32LE (4 * (items.length + 2)
            + ((items.map inner.encode).map List.length).sum)
        ++ ((offsetsFrom (4 * (items.length + 2))
              ((items.map inner.encode).map List.length)).map u32LE).flatten
        ++ (items.map inner.encode).flatten := rfl

theorem varVecEncode_length {V : Type} (inner : Codec V) (items : List V) :
    (varVecEncode inner items).length
      = 4 * (items.length + 2)
        + ((items.map inner.encode).map List.length).sum := by
  rw [varVecEncode_def]
  simp only [List.length_append, u32LE_length, List.length_flatten,
    sum_map_length_u32LE, offsetsFrom_length, List.length_map]
  omega

theorem varVecDecode_varVecEncode {V : Type} (inner : Codec V) (items : List V)
    (hrt : ∀ x ∈ items, inner.decode (inner.encode x) = .ok x)
    (htot : 4 * (items.length + 2)
        + ((items.map inner.encode).map List.length).sum < 2 ^ 32) :
    varVecDecode inner (varVecEncode inner items) = .ok items := by
  have hblen := varVecEncode_length inner items
  have hF1 : (varVecEncode inner items).take 4
      = u32LE (4 * (items.length + 2)
          + ((items.map inner.encode).map List.length).sum) := by
    rw [varVecEncode_def, List.append_assoc, take4_u32LE]
  have hF2 : fromLEBytes ((varVecEncode inner items).take 4)
      = 4 * (items.length + 2)
        + ((items.map inner.encode).map List.length).sum := by
    rw [hF1, fromLEBytes_u32LE _ htot]
  have hF3 : (varVecEncode inner items).drop 4
      = ((offsetsFrom (4 * (items.length + 2))
            ((items.map inner.encode).map List.length)).map u32LE).flatten
        ++ (items.map inner.encode).flatten := by
    rw [varVecEncode_def, List.append_assoc, drop4_u32LE]
  have hF4 : ((varVecEncode inner items).drop 4).take 4
      = u32LE (4 * (items.length + 2)) := by
    rw [hF3]
    obtain ⟨t, ht⟩ := offsetsFrom_cons_form (4 * (items.length + 2))
      ((items.map inner.encode).map List.length)
    rw [ht, List.map_cons, List.flatten_cons, List.append_assoc, take4_u32LE]
  have hF5 : fromLEBytes (((varVecEncode inner items).drop 4).take 4)
      = 4 * (items.length + 2) := by
    rw [hF4, fromLEBytes_u32LE _ (by omega)]
  have hF9 : ∀ i, i < items.length + 1 →
      fromLEBytes (((varVecEncode inner items).drop (4 * (i + 1))).take 4)
        = (offsetsFrom (4 * (items.length + 2))
            ((items.map inner.encode).map List.length)).getD i 0 := by
    intro i hi
    have hdrop : (varVecEncode inner items).drop (4 * (i + 1))
        = (((offsetsFrom (4 * (items.length + 2))
              ((items.map inner.encode).map List.length)).map u32LE).flatten
            ++ (items.map inner.encode).flatten).drop (4 * i) := by
      rw [show 4 * (i + 1) = 4 + 4 * i from by ring, ← List.drop_drop, hF3]
    rw [hdrop, read_u32_table _ _ i (by
      rw [offsetsFrom_length, List.length_map, List.length_map]; omega)]
    rw [offsetsFrom_getD _ _ _ (by
      rw [List.length_map, List.length_map]; omega)]
    exact fromLEBytes_u32LE _ (by
      have hs := sum_take_le ((items.map inner.encode).map List.length) i
      omega)
  have hF10 : (List.range (items.length + 1)).map
        (fun i => fromLEBytes
          (((varVecEncode inner items).drop (4 * (i + 1))).take 4))
      = offsetsFrom (4 * (items.length + 2))
          ((items.map inner.encode).map List.length) := by
    rw [List.map_congr_left (fun i hi =>
      hF9 i (by simpa using List.mem_range.mp hi))]
    have hlen : items.length + 1
        = (offsetsFrom (4 * (items.length + 2))
            ((items.map inner.encode).map List.length)).length := by
      rw [offsetsFrom_length, List.length_map, List.length_map]
    rw [hlen, map_getD_range]
  have hF11 := offsetsSorted_offsetsFrom (4 * (items.length + 2))
    ((items.map inner.encode).map List.length)
  have hF12 : (offsetsFrom (4 * (items.length + 2))
        ((items.map inner.encode).map List.length)).getLast?
      = some (4 * (items.length + 2)
          + ((items.map inner.encode).map List.length).sum) :=
    offsetsFrom_getLast? _ _
  have hF13 : decodeItemsFrom inner (varVecEncode inner items) 0
        (offsetsFrom (4 * (items.length + 2))
          ((items.map inner.encode).map List.length))
      = .ok items := by
    have hpre : (u32LE (4 * (items.length + 2)
          + ((items.map inner.encode).map List.length).sum)
        ++ ((offsetsFrom (4 * (items.length + 2))
              ((items.map inner.encode).map List.length)).map u32LE).flatten).length
        = 4 * (items.length + 2) := by
      rw [List.length_append, u32LE_length, List.length_flatten,
        sum_map_length_u32LE, offsetsFrom_length, List.length_map,
        List.length_map]
      ring
    have hb : varVecEncode inner items
        = (u32LE (4 * (items.length + 2)
              + ((items.map inner.encode).map List.length).sum)
            ++ ((offsetsFrom (4 * (items.length + 2))
                  ((items.map inner.encode).map List.length)).map u32LE).flatten)
          ++ (items.map inner.encode).flatten ++ [] := by
      rw [varVecEncode_def]
      simp [List.append_assoc]
    have hspec := decodeItemsFrom_spec inner items
      (u32LE (4 * (items.length + 2)
          + ((items.map inner.encode).map List.length).sum)
        ++ ((offsetsFrom (4 * (items.length + 2))
              ((items.map inner.encode).map List.length)).map u32LE).flatten)
      [] 0 hrt
    rw [hpre] at hspec
    rw [hb]
    exact hspec
  unfold varVecDecode
  rw [hF2, hblen, if_neg (by omega), if_neg (by omega), if_neg (by omega),
    hF5, if_neg (by omega),
    show 4 * (items.length + 2) / 4 - 2 = items.length from by omega]
  simp only [hF10, hF11, hF12]
  rw [if_neg (by omega), if_neg (by simp), if_neg (by simp)]
  exact hF13

theorem varVecEncode_offset_field {V : Type} (inner : Codec V)
    (items : List V) (i : Nat) (hi : i ≤ items.length) :
    ((varVecEncode inner items).drop (4 * (i + 1))).take 4
      = u32LE (4 * (items.length + 2)
          + (((items.map inner.encode).map List.length).take i).sum) := by
  have hdrop : (varVecEncode inner items).drop (4 * (i + 1))
      = (((offsetsFrom (4 * (items.length + 2))
            ((items.map inner.encode).map List.length)).map u32LE).flatten
          ++ (items.map inner.encode).flatten).drop (4 * i) := by
    rw [show 4 * (i + 1) = 4 + 4 * i from by ring, ← List.drop_drop,
      varVecEncode_def, List.append_assoc, drop4_u32LE]
  rw [hdrop, read_u32_table _ _ i (by
    rw [offsetsFrom_length, List.length_map, List.length_map]; omega)]
  rw [offsetsFrom_getD _ _ _ (by
    rw [List.length_map, List.length_map]; omega)]

theorem varVecEncode_payload {V : Type} (inner : Codec V) (items : List V) :
    (varVecEncode inner items).drop (4 * (items.length + 2))
      = (items.map inner.encode).flatten := by
  have hpre : (u32LE (4 * (items.length + 2)
        + ((items.map inner.encode).map List.length).sum)
      ++ ((offsetsFrom (4 * (items.length + 2))
            ((items.map inner.encode).map List.length)).map u32LE).flatten).length
      = 4 * (items.length + 2) := by
    rw [List.length_append, u32LE_length, List.length_flatten,
      sum_map_length_u32LE, offsetsFrom_length, List.length_map,
      List.length_map]
    ring
  rw [varVecEncode_def, List.drop_left' hpre]

/-- C4: the Vector combinator over an inner codec with no static length uses
the variable-item layout: the encoding is a 4-byte little-endian total-length
field equal to the full encoded size, then N+1 little-endian offsets where
offset i is 4*(N+2) plus the sizes of the items before item i (so offset 0 is
4*(N+2) and offset N the total length), then the item encodings back-to-back;
decode verifies the total-length field, offset monotonicity, the first and
last offsets, recovers item i from the byte range between offsets i and i+1
(round trip), and rejects a buffer whose offsets decrease. -/
theorem claim_c4_var_vector (V : Type) (inner : Codec V) (items : List V)
    (i : Nat) (hvar : inner.byteLength = none) (hi : i ≤ items.length)
    (hrt : ∀ x ∈ items, inner.decode (inner.encode x) = .ok x)
    (htot : 4 * (items.length + 2)
        + ((items.map inner.encode).map List.length).sum < 2 ^ 32) :
    ((vector inner).encode items).length
        = 4 * (items.length + 2)
          + ((items.map inner.encode).map List.length).sum ∧
    ((vector inner).encode items).take 4
        = u32LE (((vector inner).encode items).length) ∧
    (((vector inner).encode items).drop (4 * (i + 1))).take 4
        = u32LE (4 * (items.length + 2)
            + (((items.map inner.encode).map List.length).take i).sum) ∧
    ((vector inner).encode items).drop (4 * (items.length + 2))
        = (items.map inner.encode).flatten ∧
    (vector inner).decode ((vector inner).encode items) = .ok items ∧
    (vector part000.Int8Opt).decode
        [22, 0, 0, 0, 20, 0, 0, 0, 19, 0, 0, 0, 21, 0, 0, 0, 22, 0, 0, 0, 1, 2]
      = .error .offsetTable := by
  have henc : (vector inner).encode items = varVecEncode inner items := by
    simp [vector, hvar]
  have hdec : (vector inner).decode (varVecEncode inner items)
      = varVecDecode inner (varVecEncode inner items) := by
    simp [vector, hvar]
  refine ⟨?_, ?_, ?_, ?_, ?_, by decide⟩
  · rw [henc]
    exact varVecEncode_length inner items
  · rw [henc, varVecEncode_length inner items, varVecEncode_def,
      List.append_assoc, take4_u32LE]
  · rw [henc]
    exact varVecEncode_offset_field inner items i hi
  · rw [henc]
    exact varVecEncode_payload inner items
  · rw [henc, hdec]
    exact varVecDecode_varVecEncode inner items hrt htot

/-- Witness for C4: the part_000 Int8Opt inner codec (no static length) on
the items [present 1, absent, present 2], offset index 1. -/
theorem claim_c4_var_vector_witness :
    ((vector part000.Int8Opt).encode [some 1, none, some 2]).length
        = 4 * (([some 1, none, some 2] : List (Option Int)).length + 2)
          + ((([some 1, none, some 2] : List (Option Int)).map
              part000.Int8Opt.encode).map List.length).sum ∧
    ((vector part000.Int8Opt).encode [some 1, none, some 2]).take 4
        = u32LE (((vector part000.Int8Opt).encode [some 1, none, some 2]).length) ∧
    (((vector part000.Int8Opt).encode [some 1, none, some 2]).drop (4 * (1 + 1))).take 4
        = u32LE (4 * (([some 1, none, some 2] : List (Option Int)).length + 2)
            + (((([some 1, none, some 2] : List (Option Int)).map
                part000.Int8Opt.encode).map List.length).take 1).sum) ∧
    ((vector part000.Int8Opt).encode [some 1, none, some 2]).drop
        (4 * (([some 1, none, some 2] : List (Option Int)).length + 2))
        = (([some 1, none, some 2] : List (Option Int)).map
            part000.Int8Opt.encode).flatten ∧
    (vector part000.Int8Opt).decode
        ((vector part000.Int8Opt).encode [some 1, none, some 2])
      = .ok [some 1, none, some 2] ∧
    (vector part000.Int8Opt).decode
        [22, 0, 0, 0, 20, 0, 0, 0, 19, 0, 0, 0, 21, 0, 0, 0, 22, 0, 0, 0, 1, 2]
      = .error .offsetTable :=
  claim_c4_var_vector (Option Int) part000.Int8Opt [some 1, none, some 2] 1
    rfl (by decide) (by decide) (by decide)

theorem flatten_length_of_const {V : Type} (f : V → Bytes) (L : Nat)
    (items : List V) (h : ∀ x ∈ items, (f x).length = L) :
    ((items.map f).flatten).length = items.length * L := by
  induction items with
  | nil => simp
  | cons x xs ih =>
    simp only [List.map_cons, List.flatten_cons, List.length_append,
      List.length_cons]
    rw [h x (by simp), ih (fun y hy => h y (by simp [hy]))]
    ring

/-- C5: the Vector combinator over an inner codec declaring a static length L
uses the fixed-item layout: a 4-byte little-endian count N followed by the N
concatenated item encodings, total size 4 + N*L; in particular, for the
`signed.ts` Int8 (whose staticLength = 1 is declared — part_000's Int8
declares none, see C7), vector(Int8).encode([1,2,3]) =
[0x03,0x00,0x00,0x00,0x01,0x02,0x03], decoding that buffer yields [1,2,3],
and decoding a buffer whose count header says 3 over only 2 trailing bytes
fails with a DecodeError. -/
theorem claim_c5_fixed_vector (V : Type) (inner : Codec V) (L : Nat)
    (items : List V) (hL : inner.byteLength = some L)
    (hlen : ∀ x ∈ items, (inner.encode x).length = L) :
    (vector inner).encode items
        = u32LE items.length ++ (items.map inner.encode).flatten ∧
    ((vector inner).encode items).length = 4 + items.length * L ∧
    molsig.Int8Vec.encode [1, 2, 3] = [0x03, 0x00, 0x00, 0x00, 0x01, 0x02, 0x03] ∧
    molsig.Int8Vec.decode [0x03, 0x00, 0x00, 0x00, 0x01, 0x02, 0x03]
        = .ok [1, 2, 3] ∧
    molsig.Int8Vec.decode [0x03, 0x00, 0x00, 0x00, 0x01, 0x02]
        = .error (.itemBodySize 3 2) := by
  have henc : (vector inner).encode items = fixedVecEncode inner items := by
    simp [vector, hL]
  refine ⟨?_, ?_, by decide, by decide, by decide⟩
  · rw [henc]
    rfl
  · rw [henc]
    unfold fixedVecEncode
    rw [List.length_append, u32LE_length,
      flatten_length_of_const inner.encode L items hlen]

/-- Witness for C5: the `signed.ts` Int8 codec (staticLength 1) on the
items [7, -1]. -/
theorem claim_c5_fixed_vector_witness :
    (vector molsig.Int8).encode [7, -1]
        = u32LE ([7, -1] : List Int).length
          ++ (([7, -1] : List Int).map molsig.Int8.encode).flatten ∧
    ((vector molsig.Int8).encode [7, -1]).length
        = 4 + ([7, -1] : List Int).length * 1 ∧
    molsig.Int8Vec.encode [1, 2, 3] = [0x03, 0x00, 0x00, 0x00, 0x01, 0x02, 0x03] ∧
    molsig.Int8Vec.decode [0x03, 0x00, 0x00, 0x00, 0x01, 0x02, 0x03]
        = .ok [1, 2, 3] ∧
    molsig.Int8Vec.decode [0x03, 0x00, 0x00, 0x00, 0x01, 0x02]
        = .error (.itemBodySize 3 2) :=
  claim_c5_fixed_vector Int molsig.Int8 1 [7, -1] rfl (by decide)

/-- C6: the Option combinator encodes absence as the empty buffer and
presence as the inner encoding; decode maps the empty buffer to absent and
any non-empty buffer to present of the inner decode, propagating any inner
failure unchanged; includes the spec's Int8 round-trip examples. -/
theorem claim_c6_option (V : Type) (inner : Codec V) (v : V) (b : Bytes)
    (hb : b ≠ []) :
    (option inner).encode none = [] ∧
    (option inner).encode (some v) = inner.encode v ∧
    (option inner).decode [] = .ok none ∧
    (option inner).decode b = (inner.decode b).map some ∧
    (∀ e, inner.decode b = .error e → (option inner).decode b = .error e) ∧
    part000.Int8Opt.decode (part000.Int8Opt.encode none) = .ok none ∧
    part000.Int8Opt.decode (part000.Int8Opt.encode (some 5)) = .ok (some 5) ∧
    part000.Int8Opt.encode none = [] := by
  refine ⟨rfl, rfl, rfl, ?_, ?_, by decide, by decide, by decide⟩
  · simp [option, hb]
  · intro e he
    simp [option, hb, he, Except.map]

/-- Witness for C6: the part_000 Int8 inner codec, the present value 5 and
the non-empty buffer [5]. -/
theorem claim_c6_option_witness :
    (option part000.Int8).encode none = [] ∧
    (option part000.Int8).encode (some 5) = part000.Int8.encode 5 ∧
    (option part000.Int8).decode [] = .ok none ∧
    (option part000.Int8).decode [5] = (part000.Int8.decode [5]).map some ∧
    (∀ e, part000.Int8.decode [5] = .error e →
      (option part000.Int8).decode [5] = .error e) ∧
    part000.Int8Opt.decode (part000.Int8Opt.encode none) = .ok none ∧
    part000.Int8Opt.decode (part000.Int8Opt.encode (some 5)) = .ok (some 5) ∧
    part000.Int8Opt.encode none = [] :=
  claim_c6_option Int part000.Int8 5 [5] (by decide)

/-- Witness for C9 at width 16 bits, big-endian, n = -1, byte position 0. -/
theorem claim_c9_encode_wraps_witness :
    ((part000.primOfWidth 2 false).encode (-1)).length = 2 ∧
    (molsig.primOfWidth 2 false).encode (-1)
        = (part000.primOfWidth 2 false).encode (-1) ∧
    ((part000.primOfWidth 2 false).encode (-1))[(if (false : Bool) then 0
        else 2 - 1 - 0)]?
      = some ((((-1 : Int)) % ((2 : Int) ^ (8 * 2))).toNat / 256 ^ 0 % 256) ∧
    part000.Int8.encode 128 = [0x80] ∧
    part000.Int8.decode [0x80] = .ok (-128) ∧
    molsig.Int8.encode 128 = [0x80] ∧
    molsig.Int8.decode [0x80] = .ok (-128) :=
  claim_c9_encode_wraps 2 false (-1) 0 (Or.inr (Or.inl rfl)) (by decide)
